import Mathlib

/-! A verification development for `script.js` (ICF code viewer)

The data core of `script.js` is embedded as pure Lean functions:

* `parseCSVLine` : the quote-aware field splitter (script.js, lines 79-99);
* `parseCSV`     : the line loop with forward-fill and the retention test
  (lines 39-76);
* `structureData`: the grouping pass that builds the nested index out of plain
  JavaScript objects (lines 102-116), together with `objectKeys`, the
  enumeration `Object.keys` performs on such an object (lines 132, 148, 373);
* `findRecord`   : the `icfData.find(...)` lookup of `displayCodeDetails`
  (lines 279-288).

The index `structuredData` is a plain object used as a map, and so is each of
its values.  A plain object is modelled by its own properties in creation
order, by the twelve property names it inherits from `Object.prototype`
(`structuredData[k]` is truthy for these before anything is stored), and by
the order in which `Object.keys` lists own keys (array indices first, in
ascending numeric order).  A run that reaches a built-in object the model does
not follow ends in `Outcome.unmodelled`; nothing is proved about such runs.

JavaScript strings are modelled as lists of characters.  The program only
compares characters with the double quote, the comma, the line feed and the
white space set of `String.prototype.trim`; all of these are single code
units, so working on code points or on UTF-16 code units gives the same
result.
-/

namespace Character

/-- A JavaScript string. -/
abbrev Str := List Char

/-! ## String primitives used by the parser -/

/-- The characters `String.prototype.trim` strips: ECMAScript `WhiteSpace`
and `LineTerminator`. -/
def isJsWhiteSpace (c : Char) : Bool :=
  let n := c.toNat
  n == 0x09 || n == 0x0A || n == 0x0B || n == 0x0C || n == 0x0D || n == 0x20 ||
  n == 0xA0 || n == 0x1680 || (0x2000 ≤ n && n ≤ 0x200A) || n == 0x2028 ||
  n == 0x2029 || n == 0x202F || n == 0x205F || n == 0x3000 || n == 0xFEFF

/-- The method `s.trim()`. -/
def jsTrim (s : Str) : Str :=
  ((s.dropWhile isJsWhiteSpace).reverse.dropWhile isJsWhiteSpace).reverse

/-- The call `s.split('\n')`: the segments between line feeds; a string
without line feed gives one segment, the string itself. -/
def splitNewline : Str → List Str
  | [] => [[]]
  | c :: cs =>
    if c = '\n' then [] :: splitNewline cs
    else
      match splitNewline cs with
      | [] => [[c]]
      | l :: ls => (c :: l) :: ls

/-- The expression `a || b` on strings: `a` when it is non-empty, else `b`. -/
def orElse (a b : Str) : Str := if a = [] then b else a

/-! ## `parseCSVLine` (script.js, lines 79-99) -/

/-- The `for` loop of `parseCSVLine` over the remaining characters, with the
loop variables `result`, `current` and `inQuotes`; at the end of the line the
last field is pushed. -/
def parseCSVLineLoop : List Char → List Str → Str → Bool → List Str
  | [], result, current, _ => result ++ [jsTrim current]
  | char :: rest, result, current, inQuotes =>
    if char = '"' then
      parseCSVLineLoop rest result current (!inQuotes)
    else if char = ',' ∧ inQuotes = false then
      parseCSVLineLoop rest (result ++ [jsTrim current]) [] inQuotes
    else
      parseCSVLineLoop rest result (current ++ [char]) inQuotes

/-- The function `parseCSVLine(line)`. -/
def parseCSVLine (line : Str) : List Str :=
  parseCSVLineLoop line [] [] false

/-! ## `parseCSV` (script.js, lines 39-76) -/

/-- One element of `icfData`. -/
structure Record where
  domain : Str
  category : Str
  code : Str
  description : Str
  gameApplication : Str
  gameExample : Str
  deriving DecidableEq, Repr

/-- The variables the loop of `parseCSV` updates. -/
structure ParseState where
  lastDomain : Str
  lastCategory : Str
  icfData : List Record
  deriving DecidableEq, Repr

/-- The body of the `for` loop of `parseCSV` for one `lines[i]`, `i ≥ 1`. -/
def parseCSVStep (st : ParseState) (raw : Str) : ParseState :=
  let line := jsTrim raw
  if line = [] then st
  else
    let values := parseCSVLine line
    if 6 ≤ values.length then
      let domain := orElse (jsTrim (values.getD 0 [])) st.lastDomain
      let category := orElse (jsTrim (values.getD 1 [])) st.lastCategory
      let code := jsTrim (values.getD 2 [])
      let lastDomain := if domain = [] then st.lastDomain else domain
      let lastCategory := if category = [] then st.lastCategory else category
      let row : Record :=
        { domain := domain, category := category, code := code,
          description := jsTrim (values.getD 3 []),
          gameApplication := jsTrim (values.getD 4 []),
          gameExample := jsTrim (values.getD 5 []) }
      if code ≠ [] ∧ domain ≠ [] ∧ category ≠ [] then
        { lastDomain := lastDomain, lastCategory := lastCategory,
          icfData := st.icfData ++ [row] }
      else
        { lastDomain := lastDomain, lastCategory := lastCategory, icfData := st.icfData }
    else st

/-- The function `parseCSV(csvText)`: the value of `icfData` when it returns.
The loop starts at `i = 1`, so `lines[0]` is never parsed. -/
def parseCSV (csvText : Str) : List Record :=
  ((splitNewline csvText).tail.foldl parseCSVStep
    { lastDomain := [], lastCategory := [], icfData := [] }).icfData

/-- The state of the loop of `parseCSV` after the data lines `ls`. -/
def stateAfter (ls : List Str) : ParseState :=
  ls.foldl parseCSVStep { lastDomain := [], lastCategory := [], icfData := [] }

/-! ### The parser's rules in the words of the specification -/

/-- Field `k` of a line as `parseCSV` reads it: the line is trimmed, split by
`parseCSVLine`, and the field trimmed. -/
def fieldOf (raw : Str) (k : Nat) : Str :=
  jsTrim ((parseCSVLine (jsTrim raw)).getD k [])

/-- A well-formed row: non-blank after trimming and at least 6 fields. -/
def isDataRow (raw : Str) : Bool :=
  decide (jsTrim raw ≠ []) && decide (6 ≤ (parseCSVLine (jsTrim raw)).length)

/-- The most recently seen non-blank value of column `col` among the
well-formed rows of `prior` (the empty string when there is none). -/
def mostRecentNonBlank (col : Nat) (prior : List Str) : Str :=
  ((((prior.filter isDataRow).map (fun raw => fieldOf raw col)).filter
    (fun v => decide (v ≠ []))).getLast?).getD []

/-- Domain of a row after forward-fill, given the lines before it. -/
def filledDomain (prior : List Str) (raw : Str) : Str :=
  if fieldOf raw 0 = [] then mostRecentNonBlank 0 prior else fieldOf raw 0

/-- Category of a row after forward-fill, given the lines before it. -/
def filledCategory (prior : List Str) (raw : Str) : Str :=
  if fieldOf raw 1 = [] then mostRecentNonBlank 1 prior else fieldOf raw 1

/-- The record of a row, given the lines before it. -/
def recordOf (prior : List Str) (raw : Str) : Record :=
  { domain := filledDomain prior raw, category := filledCategory prior raw,
    code := fieldOf raw 2, description := fieldOf raw 3,
    gameApplication := fieldOf raw 4, gameExample := fieldOf raw 5 }

/-- The retention rule: the line is a well-formed row whose code, filled
domain and filled category are all non-empty. -/
def isRetained (prior : List Str) (raw : Str) : Bool :=
  isDataRow raw && decide (fieldOf raw 2 ≠ []) && decide (filledDomain prior raw ≠ []) &&
    decide (filledCategory prior raw ≠ [])

/-- What line `raw` contributes to the output when `prior` are the data lines
before it: its record if it is retained, nothing otherwise. -/
def contribution (prior : List Str) (raw : Str) : Option Record :=
  if isRetained prior raw then some (recordOf prior raw) else none

/-- A field wrapped in double quotes. -/
def quoteField (f : Str) : Str := '"' :: f ++ ['"']

/-- The fields joined with commas, as `fields.join(',')` does. -/
def joinComma : List Str → Str
  | [] => []
  | [f] => f
  | f :: g :: fs => f ++ ',' :: joinComma (g :: fs)

/-! ## `displayCodeDetails` (script.js, lines 275-288) -/

/-- What `displayCodeDetails` puts in the detail area: the error message of
line 286, or the details of the record found. -/
inductive DetailsView where
  | notFound
  | details (codeData : Record)
  deriving DecidableEq, Repr

/-- The function `displayCodeDetails(domain, category, code)` on the global
`icfData`: `Array.prototype.find` with the three `===` tests, then the
`!codeData` test (a record is an object, hence truthy). -/
def displayCodeDetails (icfData : List Record) (domain category code : Str) : DetailsView :=
  match icfData.find? (fun item =>
      decide (item.domain = domain) && decide (item.category = category) &&
        decide (item.code = code)) with
  | none => DetailsView.notFound
  | some codeData => DetailsView.details codeData

/-! ## Plain JavaScript objects used as maps -/

/-- The own properties of a plain object `{}` with string keys, in the order
in which they were created. -/
abbrev Obj (V : Type) := List (Str × V)

/-- The own property `k` of an object, if it has one. -/
def getOwn {V : Type} : Obj V → Str → Option V
  | [], _ => none
  | (k', v) :: rest, k => if k' = k then some v else getOwn rest k

/-- The assignment `o[k] = v` when `k` does not resolve along the prototype
chain or is an own property: an own property keeps its place, a new one is
created last. -/
def setOwn {V : Type} : Obj V → Str → V → Obj V
  | [], k, v => [(k, v)]
  | (k', v') :: rest, k, v => if k' = k then (k', v) :: rest else (k', v') :: setOwn rest k v

/-- The property names of `Object.prototype`, which every plain object
inherits (ECMA-262, sections 20.1.3 and B.2.2). -/
def objectPrototypeKeys : List Str :=
  ["constructor".toList, "__defineGetter__".toList, "__defineSetter__".toList,
   "hasOwnProperty".toList, "__lookupGetter__".toList, "__lookupSetter__".toList,
   "isPrototypeOf".toList, "propertyIsEnumerable".toList, "toString".toList,
   "valueOf".toList, "__proto__".toList, "toLocaleString".toList]

/-- The members of `objectPrototypeKeys` whose value is a built-in method that
is not a constructor (all but `constructor` and `__proto__`). -/
def objectPrototypeMethods : List Str :=
  objectPrototypeKeys.filter
    (fun k => decide (k ≠ "constructor".toList) && decide (k ≠ "__proto__".toList))

/-- The property names that resolve on a built-in method, or may in some
engine: its own `length` and `name`, those of `Function.prototype`, and those
of `Object.prototype`. -/
def functionPropertyKeys : List Str :=
  ["length".toList, "name".toList, "prototype".toList, "apply".toList, "bind".toList,
   "call".toList, "arguments".toList, "caller".toList] ++ objectPrototypeKeys

/-- The value of `o[k]` for a plain object `o`, as far as the program tests
it: an own property, a member of `Object.prototype` (truthy, and not an object
the program created), or `undefined`. -/
inductive Lookup (V : Type) where
  | own (v : V)
  | inherited
  | undefined

/-- The expression `o[k]` on a plain object. -/
def getProp {V : Type} (o : Obj V) (k : Str) : Lookup V :=
  match getOwn o k with
  | some v => Lookup.own v
  | none => if k ∈ objectPrototypeKeys then Lookup.inherited else Lookup.undefined

/-- The array index a property key stands for, if any: the canonical decimal
string of an integer from 0 to 2^32 - 2 (ECMA-262, section 6.1.7). -/
def arrayIndex (k : Str) : Option Nat :=
  if k = ['0'] then some 0
  else if k ≠ [] ∧ k.head? ≠ some '0' ∧ k.all (fun c => decide ('0' ≤ c ∧ c ≤ '9')) then
    let n := k.foldl (fun a c => 10 * a + (c.toNat - 48)) 0
    if n < 4294967295 then some n else none
  else none

/-- The order in which an ordinary object lists own string keys created in
the order `names`: the array indices in ascending numeric order, then the
other keys in creation order (ECMA-262, OrdinaryOwnPropertyKeys). -/
def jsKeyOrder (names : List Str) : List Str :=
  (names.filter (fun k => (arrayIndex k).isSome)).insertionSort
      (fun a b => (arrayIndex a).getD 0 ≤ (arrayIndex b).getD 0)
    ++ names.filter (fun k => !(arrayIndex k).isSome)

/-- The call `Object.keys(o)` on a plain object whose properties are all
enumerable data properties. -/
def objectKeys {V : Type} (o : Obj V) : List Str :=
  jsKeyOrder (o.map Prod.fst)

/-! ## `structureData` (script.js, lines 102-116) -/

/-- The objects `structureData` can write to: the global `structuredData`,
and the properties the program has added to the built-in methods of
`Object.prototype` (keyed by the name of the method). -/
structure Heap where
  structuredData : Obj (Obj (List Record))
  builtinMethods : Obj (Obj (List Record))
  deriving DecidableEq, Repr

/-- How a run of `structureData` ends: normally, with a `TypeError` (the
`push` of line 114 applied to a value that has no such method), or on a
property of a built-in object that this model does not follow. -/
inductive Outcome where
  | completed (h : Heap)
  | typeError (h : Heap)
  | unmodelled
  deriving DecidableEq, Repr

/-- Lines 110-114 when `structuredData[item.domain]` is the own property
`inner` of `sd`. -/
def structureDataCategory (h : Heap) (sd : Obj (Obj (List Record)))
    (inner : Obj (List Record)) (item : Record) : Outcome :=
  match getProp inner item.category with
  | Lookup.inherited =>
    -- line 110 sees a truthy member of Object.prototype, line 114 calls its `push`
    Outcome.typeError { h with structuredData := sd }
  | Lookup.undefined =>
    let inner := setOwn inner item.category []
    Outcome.completed
      { h with structuredData := setOwn sd item.domain (setOwn inner item.category [item]) }
  | Lookup.own arr =>
    Outcome.completed
      { h with structuredData := setOwn sd item.domain (setOwn inner item.category (arr ++ [item])) }

/-- Lines 110-114 when `structuredData[item.domain]` is the built-in method
`Object.prototype[item.domain]`: the array is created on the method itself and
`structuredData` gets no property. -/
def structureDataBuiltin (h : Heap) (item : Record) : Outcome :=
  if item.domain ∈ objectPrototypeMethods ∧ item.category ∉ functionPropertyKeys then
    let added := (getOwn h.builtinMethods item.domain).getD []
    let arr := (getOwn added item.category).getD []
    Outcome.completed
      { h with builtinMethods :=
          setOwn h.builtinMethods item.domain (setOwn added item.category (arr ++ [item])) }
  else Outcome.unmodelled

/-- The callback of `icfData.forEach` in `structureData`, for one `item`. -/
def structureDataStep (h : Heap) (item : Record) : Outcome :=
  match getProp h.structuredData item.domain with
  | Lookup.inherited => structureDataBuiltin h item
  | Lookup.undefined =>
    -- lines 106-108 create the property
    structureDataCategory h (setOwn h.structuredData item.domain []) [] item
  | Lookup.own inner => structureDataCategory h h.structuredData inner item

/-- The `forEach` of `structureData` over the remaining records. -/
def structureDataLoop : List Record → Heap → Outcome
  | [], h => Outcome.completed h
  | item :: rest, h =>
    match structureDataStep h item with
    | Outcome.completed h' => structureDataLoop rest h'
    | Outcome.typeError h' => Outcome.typeError h'
    | Outcome.unmodelled => Outcome.unmodelled

/-- The function `structureData()` on the global `icfData`, run with
untouched built-in objects. -/
def structureData (icfData : List Record) : Outcome :=
  structureDataLoop icfData { structuredData := [], builtinMethods := [] }

/-- The global `structuredData` after the run, when the model follows it. -/
def Outcome.index : Outcome → Option (Obj (Obj (List Record)))
  | Outcome.completed h => some h.structuredData
  | Outcome.typeError h => some h.structuredData
  | Outcome.unmodelled => none

/-- The own entry `structuredData[d][c]` of the index. -/
def entry (sd : Obj (Obj (List Record))) (d c : Str) : Option (List Record) :=
  (getOwn sd d).bind (fun inner => getOwn inner c)

/-- The value `totalCodes` of `updateStats` (line 358). -/
def totalCodes (icfData : List Record) : Nat := icfData.length

/-- The value `totalDomains` of `updateStats` (line 356). -/
def totalDomains (sd : Obj (Obj (List Record))) : Nat := (objectKeys sd).length

/-- The function `getTotalCategories()` (lines 371-377). -/
def getTotalCategories (sd : Obj (Obj (List Record))) : Nat :=
  (objectKeys sd).foldl (fun total domain =>
    total + (objectKeys ((getOwn sd domain).getD [])).length) 0

/-- The sum, over every domain key and every category key under it, of the
length of that category's record sequence. -/
def sumOfCategoryLengths (sd : Obj (Obj (List Record))) : Nat :=
  ((objectKeys sd).map (fun domain =>
    ((objectKeys ((getOwn sd domain).getD [])).map (fun category =>
      ((entry sd domain category).getD []).length)).sum)).sum

/-- The distinct members of a list in order of first occurrence, those of
`seen` left out. -/
def firstOccurrencesFrom (seen : List Str) : List Str → List Str
  | [] => []
  | x :: xs =>
    if x ∈ seen then firstOccurrencesFrom seen xs
    else x :: firstOccurrencesFrom (seen ++ [x]) xs

/-- The distinct members of a list in order of first occurrence. -/
def firstOccurrences (xs : List Str) : List Str := firstOccurrencesFrom [] xs

/-- A record with the given keys and empty texts. -/
def keyed (domain category code : String) : Record :=
  { domain := domain.toList, category := category.toList, code := code.toList,
    description := [], gameApplication := [], gameExample := [] }

/-- A key list after the creation of property `k`: unchanged when the key is
there already, else `k` comes last. -/
def insertKey (ks : List Str) (k : Str) : List Str := if k ∈ ks then ks else ks ++ [k]

/-- The index after the callback of `structureData` has run on `item`, when
neither key of `item` is a member of `Object.prototype`. -/
def addRecord (sd : Obj (Obj (List Record))) (item : Record) : Obj (Obj (List Record)) :=
  let inner := (getOwn sd item.domain).getD []
  setOwn sd item.domain
    (setOwn inner item.category ((getOwn inner item.category).getD [] ++ [item]))

/-- The sum of the lengths of the arrays of one domain's object. -/
def innerLength (inner : Obj (List Record)) : Nat :=
  (inner.map (fun e => e.2.length)).sum

/-- The sum of the lengths of all arrays of the index, entry by entry. -/
def entriesLength (sd : Obj (Obj (List Record))) : Nat :=
  (sd.map (fun e => innerLength e.2)).sum

/-- No key occurs twice, in the index and in each of its objects. -/
def KeysDistinct (sd : Obj (Obj (List Record))) : Prop :=
  (sd.map Prod.fst).Nodup ∧ ∀ e ∈ sd, (e.2.map Prod.fst).Nodup

/-- The end-to-end input of the specification: a header and three rows
Body/Mobility with codes M1, M2, M3. -/
def endToEndText : Str :=
  ("h1,h2,h3,h4,h5,h6\nBody,Mobility,M1,desc1,app1,ex1\n" ++
    ",Mobility,M2,desc2,app2,ex2\nBody,,M3,desc3,app3,ex3").toList

/-! ### Lemmas on the parser -/

theorem splitNewline_ne_nil (s : Str) : splitNewline s ≠ [] := by
  induction s with
  | nil => simp [splitNewline]
  | cons c cs ih =>
    unfold splitNewline
    split
    · simp
    · split <;> simp

theorem splitNewline_append (a b : Str) :
    splitNewline (a ++ '\n' :: b) = splitNewline a ++ splitNewline b := by
  induction a with
  | nil => simp [splitNewline]
  | cons c cs ih =>
    have hne := splitNewline_ne_nil cs
    by_cases hc : c = '\n'
    · simp [splitNewline, hc, ih]
    · cases h : splitNewline cs with
      | nil => exact absurd h hne
      | cons l ls =>
        have e : splitNewline (c :: cs ++ '\n' :: b) =
            (match splitNewline (cs ++ '\n' :: b) with
              | [] => [[c]]
              | l :: ls => (c :: l) :: ls) := by
          simp [splitNewline, hc]
        have e2 : splitNewline (c :: cs) = (c :: l) :: ls := by
          simp [splitNewline, hc, h]
        rw [e, e2, ih, h]
        rfl

theorem splitNewline_of_not_mem (s : Str) (h : '\n' ∉ s) : splitNewline s = [s] := by
  induction s with
  | nil => simp [splitNewline]
  | cons c cs ih =>
    simp only [List.mem_cons, not_or] at h
    have hc : c ≠ '\n' := fun e => h.1 e.symm
    simp [splitNewline, hc, ih h.2]

theorem mostRecentNonBlank_snoc (col : Nat) (prior : List Str) (raw : Str) :
    mostRecentNonBlank col (prior ++ [raw]) =
      if isDataRow raw = true ∧ fieldOf raw col ≠ [] then fieldOf raw col
      else mostRecentNonBlank col prior := by
  unfold mostRecentNonBlank
  by_cases h1 : isDataRow raw = true
  · by_cases h2 : fieldOf raw col = []
    · simp [List.filter_append, h1, h2]
    · simp [List.filter_append, h1, h2, List.getLast?_append]
  · simp [List.filter_append, h1]

theorem parseCSV_eq (text : Str) : parseCSV text = (stateAfter (splitNewline text).tail).icfData :=
  rfl

theorem stateAfter_snoc (ls : List Str) (raw : Str) :
    stateAfter (ls ++ [raw]) = parseCSVStep (stateAfter ls) raw := by
  simp [stateAfter, List.foldl_append]

theorem parseCSVStep_spec (prior : List Str) (raw : Str) (st : ParseState)
    (hd : st.lastDomain = mostRecentNonBlank 0 prior)
    (hc : st.lastCategory = mostRecentNonBlank 1 prior) :
    parseCSVStep st raw =
      { lastDomain := mostRecentNonBlank 0 (prior ++ [raw]),
        lastCategory := mostRecentNonBlank 1 (prior ++ [raw]),
        icfData := st.icfData ++ (contribution prior raw).toList } := by
  rcases st with ⟨ld, lc, acc⟩
  simp only at hd hc
  subst hd hc
  simp only [mostRecentNonBlank_snoc]
  unfold parseCSVStep contribution isRetained recordOf filledDomain filledCategory isDataRow
    fieldOf orElse
  by_cases h1 : jsTrim raw = []
  · simp [h1]
  · by_cases h2 : 6 ≤ (parseCSVLine (jsTrim raw)).length
    · simp only [h1, h2, if_true, if_false]
      generalize jsTrim ((parseCSVLine (jsTrim raw)).getD 0 []) = f0
      generalize jsTrim ((parseCSVLine (jsTrim raw)).getD 1 []) = f1
      generalize jsTrim ((parseCSVLine (jsTrim raw)).getD 2 []) = f2
      generalize mostRecentNonBlank 0 prior = m0
      generalize mostRecentNonBlank 1 prior = m1
      by_cases h3 : f0 = [] <;> by_cases h4 : f1 = [] <;> by_cases h5 : f2 = [] <;>
      by_cases h6 : m0 = [] <;> by_cases h7 : m1 = [] <;>
      simp [h1, h3, h4, h5, h6, h7]
    · simp [h1, h2]

theorem stateAfter_spec (ls : List Str) :
    stateAfter ls =
      { lastDomain := mostRecentNonBlank 0 ls,
        lastCategory := mostRecentNonBlank 1 ls,
        icfData := (List.range ls.length).filterMap
          (fun i => contribution (ls.take i) (ls.getD i [])) } := by
  induction ls using List.reverseRecOn with
  | nil => simp [stateAfter, mostRecentNonBlank]
  | append_singleton ls raw ih =>
    rw [stateAfter_snoc, parseCSVStep_spec ls raw (stateAfter ls) (by rw [ih]) (by rw [ih]), ih]
    simp only [List.length_append, List.length_singleton, List.range_succ,
      List.filterMap_append, ParseState.mk.injEq, true_and]
    congr 1
    · apply List.filterMap_congr
      intro i hi
      have hi : i < ls.length := List.mem_range.mp hi
      rw [List.take_append_of_le_length (Nat.le_of_lt hi)]
      simp [List.getD_eq_getElem?_getD, List.getElem?_append_left hi]
    · have e : contribution (List.take ls.length (ls ++ [raw])) ((ls ++ [raw]).getD ls.length [])
          = contribution ls raw := by
        simp [List.getD_eq_getElem?_getD]
      simp only [List.filterMap_cons, List.filterMap_nil, e]
      cases contribution ls raw <;> simp

theorem parseCSV_spec (text : Str) :
    parseCSV text =
      (List.range (splitNewline text).tail.length).filterMap
        (fun i => contribution ((splitNewline text).tail.take i)
          ((splitNewline text).tail.getD i [])) := by
  rw [parseCSV_eq, stateAfter_spec]

theorem tail_splitNewline_snoc (text raw : Str) (h : '\n' ∉ raw) :
    (splitNewline (text ++ '\n' :: raw)).tail = (splitNewline text).tail ++ [raw] := by
  rw [splitNewline_append, splitNewline_of_not_mem raw h]
  cases hs : splitNewline text with
  | nil => exact absurd hs (splitNewline_ne_nil text)
  | cons a l => simp

theorem parseCSV_snoc (text raw : Str) (h : '\n' ∉ raw) :
    parseCSV (text ++ '\n' :: raw) =
      parseCSV text ++ (contribution (splitNewline text).tail raw).toList := by
  rw [parseCSV_eq, parseCSV_eq, tail_splitNewline_snoc text raw h, stateAfter_snoc,
    parseCSVStep_spec (splitNewline text).tail raw _ (by rw [stateAfter_spec])
      (by rw [stateAfter_spec])]

theorem contribution_nonempty (prior : List Str) (raw : Str) (r : Record)
    (h : contribution prior raw = some r) :
    r.domain ≠ [] ∧ r.category ≠ [] ∧ r.code ≠ [] := by
  unfold contribution at h
  split at h
  · rename_i hr
    simp only [Option.some.injEq] at h
    subst h
    simp only [isRetained, Bool.and_eq_true, decide_eq_true_eq] at hr
    exact ⟨hr.1.2, hr.2, hr.1.1.2⟩
  · simp at h

theorem mostRecentNonBlank_append_blank (col : Nat) (ls blanks : List Str)
    (hb : ∀ b ∈ blanks, jsTrim b = []) :
    mostRecentNonBlank col (ls ++ blanks) = mostRecentNonBlank col ls := by
  have e : blanks.filter isDataRow = [] := by
    apply List.filter_eq_nil_iff.mpr
    intro b hmem
    simp [isDataRow, hb b hmem]
  simp [mostRecentNonBlank, List.filter_append, e]

theorem mostRecentNonBlank_after_row (col : Nat) (prior blanks : List Str) (L : Str)
    (hb : ∀ b ∈ blanks, jsTrim b = []) (hL : isDataRow L = true) (hv : fieldOf L col ≠ []) :
    mostRecentNonBlank col (prior ++ L :: blanks) = fieldOf L col := by
  have e : prior ++ L :: blanks = (prior ++ [L]) ++ blanks := by simp
  rw [e, mostRecentNonBlank_append_blank col _ blanks hb, mostRecentNonBlank_snoc]
  simp [hL, hv]

/-! ## Claims on the parser -/

/-- C1: for every input text the output of `parseCSV` is, in line order, one
record for each line after the first that is a well-formed row (non-blank
after trimming, at least 6 fields) with non-empty code, non-empty filled
domain and non-empty filled category, and nothing for every other line; so
every record has non-empty domain, category and code, and a line with fewer
than 6 fields or with an empty code yields no record. -/
theorem parseCSV_retains_exactly (text : Str) :
    parseCSV text =
        (List.range (splitNewline text).tail.length).filterMap (fun i =>
          if isRetained ((splitNewline text).tail.take i)
              ((splitNewline text).tail.getD i []) = true
          then some (recordOf ((splitNewline text).tail.take i)
              ((splitNewline text).tail.getD i []))
          else none)
      ∧ (∀ r ∈ parseCSV text, r.domain ≠ [] ∧ r.category ≠ [] ∧ r.code ≠ [])
      ∧ (∀ prior raw, ((parseCSVLine (jsTrim raw)).length < 6 ∨ fieldOf raw 2 = []) →
          isRetained prior raw = false)
      ∧ parseCSV "h\nD,C,1,desc,app".toList = []
      ∧ parseCSV "h\nD,C,,desc,app,ex".toList = [] := by
  refine ⟨?_, ?_, ?_, by decide, by decide⟩
  · exact parseCSV_spec text
  · intro r hr
    rw [parseCSV_spec, List.mem_filterMap] at hr
    obtain ⟨i, _, hi⟩ := hr
    exact contribution_nonempty _ _ r hi
  · intro prior raw h
    rcases h with h | h
    · have : ¬ 6 ≤ (parseCSVLine (jsTrim raw)).length := by omega
      simp [isRetained, isDataRow, this]
    · simp [isRetained, h]

/-- C2: forward-fill.  When a line `raw` is appended to a text, the output
grows by the record of `raw` if it is retained and is unchanged otherwise;
that record's domain is the trimmed field 0 of `raw` when non-empty and
otherwise the most recent non-blank domain of the well-formed rows before it,
its category follows the same rule on field 1 on its own, and its code is the
trimmed field 2 of `raw`, never filled.  Rows `A,X,1`, `,Y,2`, `,,3` give
domains A, A, A and categories X, Y, Y. -/
theorem parseCSV_forward_fill (text raw : Str) (h : '\n' ∉ raw) :
    (∃ r : Record,
        r.domain = (if fieldOf raw 0 = [] then mostRecentNonBlank 0 (splitNewline text).tail
                    else fieldOf raw 0)
      ∧ r.category = (if fieldOf raw 1 = [] then mostRecentNonBlank 1 (splitNewline text).tail
                      else fieldOf raw 1)
      ∧ r.code = fieldOf raw 2
      ∧ parseCSV (text ++ '\n' :: raw) =
          parseCSV text ++ (if isRetained (splitNewline text).tail raw = true then [r] else []))
    ∧ (parseCSV "h\nA,X,1,d,a,e\n,Y,2,d,a,e\n,,3,d,a,e".toList).map (fun r => r.domain) =
        ["A".toList, "A".toList, "A".toList]
    ∧ (parseCSV "h\nA,X,1,d,a,e\n,Y,2,d,a,e\n,,3,d,a,e".toList).map (fun r => r.category) =
        ["X".toList, "Y".toList, "Y".toList] := by
  refine ⟨⟨recordOf (splitNewline text).tail raw, rfl, rfl, rfl, ?_⟩, by decide, by decide⟩
  rw [parseCSV_snoc text raw h]
  unfold contribution
  split <;> simp

/-- Witness of C2: the third row of the specification's example, appended to
the first two. -/
theorem parseCSV_forward_fill_witness :
    '\n' ∉ ",,3,d,a,e".toList ∧
    ∃ r : Record, r.domain = "A".toList ∧ r.category = "Y".toList ∧ r.code = "3".toList ∧
      parseCSV ("h\nA,X,1,d,a,e\n,Y,2,d,a,e".toList ++ '\n' :: ",,3,d,a,e".toList) =
        parseCSV "h\nA,X,1,d,a,e\n,Y,2,d,a,e".toList ++ [r] := by
  refine ⟨by decide, ?_⟩
  obtain ⟨r, h1, h2, h3, h4⟩ :=
    (parseCSV_forward_fill "h\nA,X,1,d,a,e\n,Y,2,d,a,e".toList ",,3,d,a,e".toList
      (by decide)).1
  refine ⟨r, ?_, ?_, ?_, ?_⟩
  · rw [h1]; decide
  · rw [h2]; decide
  · rw [h3]; decide
  · rw [h4]
    have : isRetained (splitNewline "h\nA,X,1,d,a,e\n,Y,2,d,a,e".toList).tail
        ",,3,d,a,e".toList = true := by decide
    rw [if_pos this]

/-- C3 as stated fails: the line `B,Y` is non-blank with field 0 equal to `B`,
the next line `,,2,d,a,e` has 6 fields, a blank field 0, a code and a filled
category, yet its record has domain `A`: a line with fewer than 6 fields does
not update the running values. -/
theorem short_line_does_not_update_fill :
    jsTrim "B,Y".toList ≠ [] ∧ fieldOf "B,Y".toList 0 = "B".toList ∧
    (parseCSVLine (jsTrim "B,Y".toList)).length < 6 ∧
    isDataRow ",,2,d,a,e".toList = true ∧ fieldOf ",,2,d,a,e".toList 0 = [] ∧
    fieldOf ",,2,d,a,e".toList 2 ≠ [] ∧
    parseCSV "h\nA,X,1,d,a,e\nB,Y".toList =
      [{ domain := "A".toList, category := "X".toList, code := "1".toList,
         description := "d".toList, gameApplication := "a".toList,
         gameExample := "e".toList }] ∧
    parseCSV "h\nA,X,1,d,a,e\nB,Y\n,,2,d,a,e".toList =
      parseCSV "h\nA,X,1,d,a,e\nB,Y".toList ++
        [{ domain := "A".toList, category := "X".toList, code := "2".toList,
           description := "d".toList, gameApplication := "a".toList,
           gameExample := "e".toList }] ∧
    "A".toList ≠ "B".toList := by
  decide

/-- C3, amended: the running domain and category are updated by every
well-formed row (at least 6 fields), retained or not.  If `L` is a well-formed
row with non-empty trimmed field 0, only blank lines follow it, and the next
line `M` is a well-formed row with blank field 0, non-empty code and non-empty
filled category, then `M` yields a record whose domain is the field 0 of `L`;
the same holds for the category with field 1. -/
theorem fill_state_updated_by_every_row (text header : Str) (prior blanks : List Str)
    (L M : Str)
    (hsplit : splitNewline text = header :: (prior ++ L :: blanks))
    (hblank : ∀ b ∈ blanks, jsTrim b = [])
    (hM : '\n' ∉ M)
    (hL : isDataRow L = true)
    (hMrow : isDataRow M = true)
    (hcode : fieldOf M 2 ≠ []) :
    (fieldOf L 0 ≠ [] → fieldOf M 0 = [] → filledCategory (prior ++ L :: blanks) M ≠ [] →
      ∃ r, parseCSV (text ++ '\n' :: M) = parseCSV text ++ [r] ∧ r.domain = fieldOf L 0)
    ∧ (fieldOf L 1 ≠ [] → fieldOf M 1 = [] → filledDomain (prior ++ L :: blanks) M ≠ [] →
      ∃ r, parseCSV (text ++ '\n' :: M) = parseCSV text ++ [r] ∧ r.category = fieldOf L 1) := by
  have ht : (splitNewline text).tail = prior ++ L :: blanks := by rw [hsplit]; rfl
  constructor
  · intro hv h0 hc
    have hd : filledDomain (prior ++ L :: blanks) M = fieldOf L 0 := by
      simp only [filledDomain, h0, if_true]
      exact mostRecentNonBlank_after_row 0 prior blanks L hblank hL hv
    have hret : isRetained (prior ++ L :: blanks) M = true := by
      simp only [isRetained, hMrow, Bool.true_and, Bool.and_eq_true, decide_eq_true_eq]
      exact ⟨⟨hcode, by rw [hd]; exact hv⟩, hc⟩
    refine ⟨recordOf (prior ++ L :: blanks) M, ?_, hd⟩
    rw [parseCSV_snoc text M hM, ht]
    simp [contribution, hret]
  · intro hv h1 hdne
    have hc : filledCategory (prior ++ L :: blanks) M = fieldOf L 1 := by
      simp only [filledCategory, h1, if_true]
      exact mostRecentNonBlank_after_row 1 prior blanks L hblank hL hv
    have hret : isRetained (prior ++ L :: blanks) M = true := by
      simp only [isRetained, hMrow, Bool.true_and, Bool.and_eq_true, decide_eq_true_eq]
      exact ⟨⟨hcode, hdne⟩, by rw [hc]; exact hv⟩
    refine ⟨recordOf (prior ++ L :: blanks) M, ?_, hc⟩
    rw [parseCSV_snoc text M hM, ht]
    simp [contribution, hret]

/-- Witness of C3 amended: the row `B,Y,,d,a,e` is dropped for its empty code
and still sets the domain and the category that `,,2,d,a,e` inherits. -/
theorem fill_state_updated_by_every_row_witness :
    parseCSV "h\nA,X,1,d,a,e\nB,Y,,d,a,e\n  ".toList = parseCSV "h\nA,X,1,d,a,e".toList ∧
    (∃ r, parseCSV ("h\nA,X,1,d,a,e\nB,Y,,d,a,e\n  ".toList ++ '\n' :: ",,2,d,a,e".toList) =
        parseCSV "h\nA,X,1,d,a,e\nB,Y,,d,a,e\n  ".toList ++ [r] ∧ r.domain = "B".toList) ∧
    (∃ r, parseCSV ("h\nA,X,1,d,a,e\nB,Y,,d,a,e\n  ".toList ++ '\n' :: ",,2,d,a,e".toList) =
        parseCSV "h\nA,X,1,d,a,e\nB,Y,,d,a,e\n  ".toList ++ [r] ∧ r.category = "Y".toList) := by
  have key := fill_state_updated_by_every_row "h\nA,X,1,d,a,e\nB,Y,,d,a,e\n  ".toList
    "h".toList ["A,X,1,d,a,e".toList] ["  ".toList] "B,Y,,d,a,e".toList ",,2,d,a,e".toList
    (by decide) (by decide) (by decide) (by decide) (by decide) (by decide)
  refine ⟨by decide, ?_, ?_⟩
  · obtain ⟨r, h1, h2⟩ := key.1 (by decide) (by decide) (by decide)
    exact ⟨r, h1, by rw [h2]; decide⟩
  · obtain ⟨r, h1, h2⟩ := key.2 (by decide) (by decide) (by decide)
    exact ⟨r, h1, by rw [h2]; decide⟩

/-- C9: the header line is discarded unread.  Two texts that differ only in
their first line give the same records; the records are those of the loop run
on the lines of the body from the empty fill state; and a text of one line,
whatever it holds, gives no record. -/
theorem parseCSV_header_ignored (h1 h2 body : Str) (hh1 : '\n' ∉ h1) (hh2 : '\n' ∉ h2) :
    parseCSV (h1 ++ '\n' :: body) = parseCSV (h2 ++ '\n' :: body)
    ∧ parseCSV (h1 ++ '\n' :: body) =
        ((splitNewline body).foldl parseCSVStep
          { lastDomain := [], lastCategory := [], icfData := [] }).icfData
    ∧ parseCSV h1 = [] := by
  have e : ∀ h : Str, '\n' ∉ h → parseCSV (h ++ '\n' :: body) =
      ((splitNewline body).foldl parseCSVStep
        { lastDomain := [], lastCategory := [], icfData := [] }).icfData := by
    intro h hh
    simp [parseCSV, splitNewline_append, splitNewline_of_not_mem h hh]
  refine ⟨by rw [e h1 hh1, e h2 hh2], e h1 hh1, ?_⟩
  simp [parseCSV, splitNewline_of_not_mem h1 hh1]

/-- Witness of C9: a header that is itself a well-formed data row gives no
record and leaves nothing to inherit. -/
theorem parseCSV_header_ignored_witness :
    '\n' ∉ "D,C,1,desc,app,ex".toList ∧ '\n' ∉ "x".toList ∧
    parseCSV ("D,C,1,desc,app,ex".toList ++ '\n' :: ",,2,d,a,e".toList) =
      parseCSV ("x".toList ++ '\n' :: ",,2,d,a,e".toList) ∧
    parseCSV ("D,C,1,desc,app,ex".toList ++ '\n' :: ",,2,d,a,e".toList) = [] ∧
    parseCSV "D,C,1,desc,app,ex".toList = [] := by
  have key := parseCSV_header_ignored "D,C,1,desc,app,ex".toList "x".toList ",,2,d,a,e".toList
    (by decide) (by decide)
  exact ⟨by decide, by decide, key.1, by decide, key.2.2⟩

/-- C10 as stated fails: two lines with the same domain, category and code
give two records with the same triple. -/
theorem parseCSV_keeps_duplicate_codes :
    parseCSV "h\nD,C,1,a,b,c\nD,C,1,x,y,z".toList =
      [{ domain := "D".toList, category := "C".toList, code := "1".toList,
         description := "a".toList, gameApplication := "b".toList,
         gameExample := "c".toList },
       { domain := "D".toList, category := "C".toList, code := "1".toList,
         description := "x".toList, gameApplication := "y".toList,
         gameExample := "z".toList }]
    ∧ ¬ ((parseCSV "h\nD,C,1,a,b,c\nD,C,1,x,y,z".toList).map
          (fun r => (r.domain, r.category, r.code))).Nodup := by
  decide

/-- C10, amended: `parseCSV` does not enforce uniqueness of the code within a
domain and category.  A well-formed row with non-empty domain, category and
code that occurs twice at the end of a text yields two records with the same
domain, category and code. -/
theorem parseCSV_no_deduplication (text raw : Str) (h : '\n' ∉ raw)
    (hrow : isDataRow raw = true) (hd : fieldOf raw 0 ≠ []) (hc : fieldOf raw 1 ≠ [])
    (hk : fieldOf raw 2 ≠ []) :
    ∃ r : Record, r.domain = fieldOf raw 0 ∧ r.category = fieldOf raw 1 ∧
      r.code = fieldOf raw 2 ∧
      parseCSV (text ++ '\n' :: raw ++ '\n' :: raw) = parseCSV text ++ [r, r] := by
  have hret : ∀ prior, isRetained prior raw = true := by
    intro prior
    simp [isRetained, hrow, hk, filledDomain, filledCategory, hd, hc]
  have hrec : ∀ prior prior2, recordOf prior raw = recordOf prior2 raw := by
    intro prior prior2
    simp [recordOf, filledDomain, filledCategory, hd, hc]
  refine ⟨recordOf [] raw, by simp [recordOf, filledDomain, hd],
    by simp [recordOf, filledCategory, hc], rfl, ?_⟩
  have e : text ++ '\n' :: raw ++ '\n' :: raw = (text ++ '\n' :: raw) ++ '\n' :: raw := by
    simp
  rw [e, parseCSV_snoc _ raw h, parseCSV_snoc text raw h]
  simp [contribution, hret, hrec _ ([] : List Str)]

/-- Witness of C10 amended. -/
theorem parseCSV_no_deduplication_witness :
    ∃ r : Record, r.domain = "D".toList ∧ r.category = "C".toList ∧ r.code = "1".toList ∧
      parseCSV ("h".toList ++ '\n' :: "D,C,1,a,b,c".toList ++ '\n' :: "D,C,1,a,b,c".toList) =
        parseCSV "h".toList ++ [r, r] := by
  obtain ⟨r, h1, h2, h3, h4⟩ := parseCSV_no_deduplication "h".toList "D,C,1,a,b,c".toList
    (by decide) (by decide) (by decide) (by decide) (by decide)
  exact ⟨r, by rw [h1]; decide, by rw [h2]; decide, by rw [h3]; decide, h4⟩

/-! ## Claims on `parseCSVLine` -/

theorem parseCSVLineLoop_quoted_body (f rest : Str) (result : List Str) (current : Str)
    (hf : '"' ∉ f) :
    parseCSVLineLoop (f ++ rest) result current true =
      parseCSVLineLoop rest result (current ++ f) true := by
  induction f generalizing current with
  | nil => simp
  | cons c cs ih =>
    simp only [List.mem_cons, not_or] at hf
    have hc : c ≠ '"' := fun e => hf.1 e.symm
    have e := ih (current ++ [c]) hf.2
    simp only [List.append_assoc, List.singleton_append] at e
    simp [parseCSVLineLoop, hc, e]

theorem parseCSVLineLoop_quoted_field (f rest : Str) (result : List Str) (hf : '"' ∉ f) :
    parseCSVLineLoop (quoteField f ++ rest) result [] false =
      parseCSVLineLoop rest result f false := by
  have e : quoteField f ++ rest = '"' :: (f ++ '"' :: rest) := by simp [quoteField]
  rw [e]
  simp only [parseCSVLineLoop, if_true, Bool.not_false]
  rw [parseCSVLineLoop_quoted_body f _ result [] hf]
  simp [parseCSVLineLoop]

theorem parseCSVLineLoop_quoted_fields (f : Str) (fs : List Str) (result : List Str)
    (h : ∀ g ∈ f :: fs, '"' ∉ g) :
    parseCSVLineLoop (joinComma ((f :: fs).map quoteField)) result [] false =
      result ++ (f :: fs).map jsTrim := by
  induction fs generalizing f result with
  | nil =>
    have hf := h f (by simp)
    have e : joinComma ([f].map quoteField) = quoteField f ++ [] := by simp [joinComma]
    rw [e, parseCSVLineLoop_quoted_field f [] result hf]
    simp [parseCSVLineLoop]
  | cons g gs ih =>
    have hf := h f (by simp)
    have e : joinComma ((f :: g :: gs).map quoteField) =
        quoteField f ++ (',' :: joinComma ((g :: gs).map quoteField)) := by
      simp [joinComma]
    rw [e, parseCSVLineLoop_quoted_field f _ result hf]
    simp only [parseCSVLineLoop]
    rw [if_neg (by decide), if_pos (by simp),
      ih g (result ++ [jsTrim f]) (fun x hx => h x (List.mem_cons_of_mem _ hx))]
    simp

/-- C4: for every non-empty list of strings free of double quotes, wrapping
each in double quotes and joining them with commas gives a line that
`parseCSVLine` splits back into the trimmed strings, one field each: commas
inside quotes are content, quotes are stripped, commas outside quotes end a
field.  The line `D,C,"1, part A",desc,app,ex` gives 6 fields, field 2 being
`1, part A`. -/
theorem parseCSVLine_quoted_round_trip (fs : List Str) (hne : fs ≠ [])
    (hq : ∀ f ∈ fs, '"' ∉ f) :
    parseCSVLine (joinComma (fs.map quoteField)) = fs.map jsTrim
    ∧ (parseCSVLine (joinComma (fs.map quoteField))).length = fs.length
    ∧ (parseCSVLine "D,C,\"1, part A\",desc,app,ex".toList).length = 6
    ∧ (parseCSVLine "D,C,\"1, part A\",desc,app,ex".toList).getD 2 [] = "1, part A".toList := by
  have key : parseCSVLine (joinComma (fs.map quoteField)) = fs.map jsTrim := by
    cases fs with
    | nil => exact absurd rfl hne
    | cons f fs =>
      unfold parseCSVLine
      rw [parseCSVLineLoop_quoted_fields f fs [] hq]
      simp
  refine ⟨key, by rw [key]; simp, by decide, by decide⟩

/-- Witness of C4: two quoted fields, one with commas, one with outer
blanks. -/
theorem parseCSVLine_quoted_round_trip_witness :
    joinComma (["1, part A".toList, " x,y ".toList].map quoteField) =
      "\"1, part A\",\" x,y \"".toList ∧
    parseCSVLine "\"1, part A\",\" x,y \"".toList = ["1, part A".toList, "x,y".toList] := by
  have key := (parseCSVLine_quoted_round_trip ["1, part A".toList, " x,y ".toList]
    (by decide) (by decide)).1
  refine ⟨by decide, ?_⟩
  have e : joinComma (["1, part A".toList, " x,y ".toList].map quoteField) =
      "\"1, part A\",\" x,y \"".toList := by decide
  rw [e] at key
  rw [key]
  decide

/-! ## Lemmas on plain objects -/

theorem getOwn_cons {V : Type} (a : Str) (b : V) (rest : Obj V) (k : Str) :
    getOwn ((a, b) :: rest) k = if a = k then some b else getOwn rest k := rfl

theorem setOwn_cons {V : Type} (a : Str) (b : V) (rest : Obj V) (k : Str) (v : V) :
    setOwn ((a, b) :: rest) k v =
      if a = k then (a, v) :: rest else (a, b) :: setOwn rest k v := rfl

theorem getOwn_setOwn {V : Type} (o : Obj V) (k k' : Str) (v : V) :
    getOwn (setOwn o k v) k' = if k = k' then some v else getOwn o k' := by
  induction o with
  | nil => rfl
  | cons e rest ih =>
    rcases e with ⟨a, b⟩
    rw [setOwn_cons]
    by_cases h1 : a = k
    · rw [if_pos h1, getOwn_cons, getOwn_cons, h1]
      by_cases h2 : k = k'
      · rw [if_pos h2, if_pos h2]
      · rw [if_neg h2, if_neg h2, if_neg h2]
    · rw [if_neg h1, getOwn_cons, getOwn_cons, ih]
      by_cases h3 : a = k'
      · rw [if_pos h3, if_pos h3]
        have : ¬ k = k' := fun e => h1 (h3.trans e.symm)
        rw [if_neg this]
      · rw [if_neg h3, if_neg h3]

theorem getOwn_eq_none_iff {V : Type} (o : Obj V) (k : Str) :
    getOwn o k = none ↔ k ∉ o.map Prod.fst := by
  induction o with
  | nil => exact ⟨fun _ => List.not_mem_nil _, fun _ => rfl⟩
  | cons e rest ih =>
    rcases e with ⟨a, b⟩
    rw [getOwn_cons, List.map_cons, List.mem_cons, not_or]
    by_cases h : a = k
    · rw [if_pos h]
      exact ⟨fun h' => Option.noConfusion h', fun h' => absurd h.symm h'.1⟩
    · rw [if_neg h, ih]
      exact ⟨fun h' => ⟨fun e => h e.symm, h'⟩, fun h' => h'.2⟩

theorem keys_setOwn {V : Type} (o : Obj V) (k : Str) (v : V) :
    (setOwn o k v).map Prod.fst = insertKey (o.map Prod.fst) k := by
  induction o with
  | nil => rfl
  | cons e rest ih =>
    rcases e with ⟨a, b⟩
    rw [setOwn_cons]
    by_cases h : a = k
    · rw [if_pos h]
      unfold insertKey
      rw [if_pos (by rw [List.map_cons, h]; exact List.mem_cons_self _ _)]
      rfl
    · rw [if_neg h, List.map_cons, ih, List.map_cons]
      unfold insertKey
      have h' : ¬ k = a := fun e => h e.symm
      by_cases hm : k ∈ rest.map Prod.fst
      · rw [if_pos hm, if_pos (List.mem_cons_of_mem _ hm)]
      · rw [if_neg hm, if_neg (by rw [List.mem_cons, not_or]; exact ⟨h', hm⟩)]
        rfl

theorem mem_setOwn {V : Type} (o : Obj V) (k : Str) (v : V) (e : Str × V)
    (h : e ∈ setOwn o k v) : e ∈ o ∨ e = (k, v) := by
  induction o with
  | nil =>
    exact Or.inr (List.mem_singleton.mp h)
  | cons x rest ih =>
    rcases x with ⟨a, b⟩
    rw [setOwn_cons] at h
    by_cases h1 : a = k
    · rw [if_pos h1, List.mem_cons] at h
      rcases h with h | h
      · exact Or.inr (by rw [h, h1])
      · exact Or.inl (List.mem_cons_of_mem _ h)
    · rw [if_neg h1, List.mem_cons] at h
      rcases h with h | h
      · exact Or.inl (by rw [h]; exact List.mem_cons_self _ _)
      · rcases ih h with h | h
        · exact Or.inl (List.mem_cons_of_mem _ h)
        · exact Or.inr h

theorem nodup_insertKey (ks : List Str) (k : Str) (h : ks.Nodup) : (insertKey ks k).Nodup := by
  unfold insertKey
  by_cases hk : k ∈ ks
  · rw [if_pos hk]; exact h
  · rw [if_neg hk]
    exact List.Nodup.append h (List.nodup_singleton k) (by simpa using hk)

theorem setOwn_setOwn {V : Type} (o : Obj V) (k : Str) (v v' : V) :
    setOwn (setOwn o k v) k v' = setOwn o k v' := by
  induction o with
  | nil =>
    show setOwn [(k, v)] k v' = [(k, v')]
    rw [setOwn_cons, if_pos rfl]
  | cons e rest ih =>
    rcases e with ⟨a, b⟩
    rw [setOwn_cons, setOwn_cons]
    by_cases h : a = k
    · rw [if_pos h, if_pos h, setOwn_cons, if_pos h]
    · rw [if_neg h, if_neg h, setOwn_cons, if_neg h, ih]

/-! ## Lemmas on `structureData` -/

theorem structureDataStep_own_keys (h : Heap) (item : Record)
    (hd : item.domain ∉ objectPrototypeKeys) (hc : item.category ∉ objectPrototypeKeys) :
    structureDataStep h item =
      Outcome.completed { h with structuredData := addRecord h.structuredData item } := by
  unfold structureDataStep getProp addRecord
  cases h1 : getOwn h.structuredData item.domain with
  | none =>
    simp only [if_neg hd, Option.getD_none]
    unfold structureDataCategory getProp
    have e1 : getOwn ([] : Obj (List Record)) item.category = none := rfl
    simp only [e1, if_neg hc, Option.getD_none, List.nil_append]
    rw [setOwn_setOwn, setOwn_setOwn]
  | some inner =>
    simp only [Option.getD_some]
    unfold structureDataCategory getProp
    cases h2 : getOwn inner item.category with
    | none =>
      simp only [if_neg hc, Option.getD_none, List.nil_append]
      rw [setOwn_setOwn]
    | some arr => simp only [Option.getD_some]

theorem structureDataLoop_own_keys (rs : List Record) (h : Heap)
    (hs : ∀ r ∈ rs, r.domain ∉ objectPrototypeKeys ∧ r.category ∉ objectPrototypeKeys) :
    structureDataLoop rs h =
      Outcome.completed { h with structuredData := rs.foldl addRecord h.structuredData } := by
  induction rs generalizing h with
  | nil => rfl
  | cons r rs ih =>
    have hr := hs r (List.mem_cons_self _ _)
    unfold structureDataLoop
    rw [structureDataStep_own_keys h r hr.1 hr.2]
    simp only
    rw [ih _ (fun x hx => hs x (List.mem_cons_of_mem _ hx))]
    rfl

theorem structureData_own_keys (rs : List Record)
    (hs : ∀ r ∈ rs, r.domain ∉ objectPrototypeKeys ∧ r.category ∉ objectPrototypeKeys) :
    structureData rs =
      Outcome.completed { structuredData := rs.foldl addRecord [], builtinMethods := [] } := by
  unfold structureData
  rw [structureDataLoop_own_keys rs _ hs]

theorem getOwn_addRecord (sd : Obj (Obj (List Record))) (r : Record) (d : Str) :
    getOwn (addRecord sd r) d =
      if r.domain = d then
        some (setOwn ((getOwn sd d).getD []) r.category
          ((getOwn ((getOwn sd d).getD []) r.category).getD [] ++ [r]))
      else getOwn sd d := by
  unfold addRecord
  rw [getOwn_setOwn]
  by_cases h : r.domain = d
  · rw [if_pos h, if_pos h, h]
  · rw [if_neg h, if_neg h]

theorem getOwn_getD_eq_entry (sd : Obj (Obj (List Record))) (d c : Str) :
    getOwn ((getOwn sd d).getD []) c = entry sd d c := by
  unfold entry
  cases getOwn sd d <;> rfl

theorem entry_addRecord (sd : Obj (Obj (List Record))) (r : Record) (d c : Str) :
    entry (addRecord sd r) d c =
      if r.domain = d ∧ r.category = c then some ((entry sd d c).getD [] ++ [r])
      else entry sd d c := by
  have e0 : entry (addRecord sd r) d c =
      (getOwn (addRecord sd r) d).bind (fun inner => getOwn inner c) := rfl
  rw [e0, getOwn_addRecord]
  by_cases h1 : r.domain = d
  · rw [if_pos h1, Option.some_bind, getOwn_setOwn, getOwn_getD_eq_entry, getOwn_getD_eq_entry]
    by_cases h2 : r.category = c
    · rw [if_pos h2, if_pos ⟨h1, h2⟩, h2]
    · rw [if_neg h2, if_neg (fun h => h2 h.2)]
  · rw [if_neg h1, if_neg (fun h => h1 h.1)]
    rfl

theorem entry_foldl_addRecord (rs : List Record) (sd : Obj (Obj (List Record))) (d c : Str) :
    entry (rs.foldl addRecord sd) d c =
      if rs.filter (fun r => decide (r.domain = d ∧ r.category = c)) = [] then entry sd d c
      else some ((entry sd d c).getD [] ++
        rs.filter (fun r => decide (r.domain = d ∧ r.category = c))) := by
  induction rs generalizing sd with
  | nil => simp
  | cons r rs ih =>
    rw [List.foldl_cons, ih, entry_addRecord]
    by_cases hm : r.domain = d ∧ r.category = c
    · have e : (r :: rs).filter (fun r => decide (r.domain = d ∧ r.category = c)) =
          r :: rs.filter (fun r => decide (r.domain = d ∧ r.category = c)) := by
        rw [List.filter_cons, if_pos (by simpa using hm)]
      rw [e, if_pos hm, if_neg (List.cons_ne_nil _ _)]
      by_cases hf : rs.filter (fun r => decide (r.domain = d ∧ r.category = c)) = []
      · rw [if_pos hf, hf]
      · rw [if_neg hf]
        simp
    · have e : (r :: rs).filter (fun r => decide (r.domain = d ∧ r.category = c)) =
          rs.filter (fun r => decide (r.domain = d ∧ r.category = c)) := by
        rw [List.filter_cons, if_neg (by simpa using hm)]
      rw [e, if_neg hm]

/-! ## Claims on the index -/

/-- C5: the grouping fails on a record whose category is a property name of
`Object.prototype`.  For the text with the one data row `D,toString,1,a,b,c`,
`parseCSV` keeps the record and `structureData` throws at line 114:
`structuredData["D"]["toString"]` is the inherited method, so line 110 creates
no array and `push` is not a function.  The index is left with the domain `D`
and no entry for the record, although a record has domain `D` and category
`toString`. -/
theorem structureData_inherited_category_throws :
    parseCSV "h\nD,toString,1,a,b,c".toList =
        [{ domain := "D".toList, category := "toString".toList, code := "1".toList,
           description := "a".toList, gameApplication := "b".toList,
           gameExample := "c".toList }]
    ∧ structureData (parseCSV "h\nD,toString,1,a,b,c".toList) =
        Outcome.typeError { structuredData := [("D".toList, [])], builtinMethods := [] }
    ∧ ((structureData (parseCSV "h\nD,toString,1,a,b,c".toList)).index.bind
        (fun sd => entry sd "D".toList "toString".toList)) = none := by
  decide

/-- Grouping on own keys (the property of C5 where the code meets it): for
every record sequence in which no domain and no category is a property name of
`Object.prototype`, `structureData` completes, touches no built-in object, and
for all strings `d` and `c` the index has an own entry
`structuredData[d][c]` if and only if some record has domain `d` and category
`c`; that entry is exactly the records with domain `d` and category `c`, in
their original order. -/
theorem structureData_groups_records (icfData : List Record)
    (hs : ∀ r ∈ icfData,
      r.domain ∉ objectPrototypeKeys ∧ r.category ∉ objectPrototypeKeys) :
    ∃ h : Heap, structureData icfData = Outcome.completed h ∧ h.builtinMethods = [] ∧
      ∀ d c : Str,
        ((∃ l, entry h.structuredData d c = some l) ↔
          ∃ r ∈ icfData, r.domain = d ∧ r.category = c)
        ∧ (∀ l, entry h.structuredData d c = some l →
            l = icfData.filter (fun r => decide (r.domain = d ∧ r.category = c))) := by
  refine ⟨_, structureData_own_keys icfData hs, rfl, ?_⟩
  intro d c
  have key := entry_foldl_addRecord icfData [] d c
  have e0 : entry ([] : Obj (Obj (List Record))) d c = none := rfl
  rw [e0] at key
  simp only [Option.getD_none, List.nil_append] at key
  by_cases hf : icfData.filter (fun r => decide (r.domain = d ∧ r.category = c)) = []
  · rw [if_pos hf] at key
    constructor
    · constructor
      · rintro ⟨l, hl⟩
        rw [hl] at key
        exact Option.noConfusion key
      · rintro ⟨r, hr, hm⟩
        have : r ∈ icfData.filter (fun r => decide (r.domain = d ∧ r.category = c)) :=
          List.mem_filter.mpr ⟨hr, by simpa using hm⟩
        rw [hf] at this
        exact absurd this (List.not_mem_nil _)
    · intro l hl
      rw [hl] at key
      exact Option.noConfusion key
  · rw [if_neg hf] at key
    constructor
    · constructor
      · intro _
        obtain ⟨r, hr⟩ := List.exists_mem_of_ne_nil _ hf
        have hr' := List.mem_filter.mp hr
        exact ⟨r, hr'.1, by simpa using hr'.2⟩
      · intro _
        exact ⟨_, key⟩
    · intro l hl
      rw [hl] at key
      exact Option.some.inj key

/-- Grouping on own keys at a concrete input: three records, two of them under
the same domain and category. -/
theorem structureData_groups_records_witness :
    ∃ h : Heap,
      structureData [keyed "B" "x" "1", keyed "A" "x" "2", keyed "B" "x" "3"] =
        Outcome.completed h ∧
      (∀ l, entry h.structuredData "B".toList "x".toList = some l →
        l = [keyed "B" "x" "1", keyed "B" "x" "3"]) ∧
      (∃ l, entry h.structuredData "A".toList "x".toList = some l) ∧
      ¬ (∃ l, entry h.structuredData "A".toList "y".toList = some l) := by
  obtain ⟨h, h1, _, h3⟩ := structureData_groups_records
    [keyed "B" "x" "1", keyed "A" "x" "2", keyed "B" "x" "3"] (by decide)
  refine ⟨h, h1, ?_, ?_, ?_⟩
  · intro l hl
    rw [(h3 "B".toList "x".toList).2 l hl]
    decide
  · exact (h3 "A".toList "x".toList).1.mpr (by decide)
  · intro hex
    have := (h3 "A".toList "y".toList).1.mp hex
    revert this
    decide

theorem keys_addRecord (sd : Obj (Obj (List Record))) (r : Record) :
    (addRecord sd r).map Prod.fst = insertKey (sd.map Prod.fst) r.domain := by
  unfold addRecord
  rw [keys_setOwn]

theorem keys_foldl_addRecord (rs : List Record) (sd : Obj (Obj (List Record))) :
    (rs.foldl addRecord sd).map Prod.fst =
      (rs.map (fun r => r.domain)).foldl insertKey (sd.map Prod.fst) := by
  induction rs generalizing sd with
  | nil => rfl
  | cons r rs ih => rw [List.foldl_cons, ih, keys_addRecord, List.map_cons, List.foldl_cons]

theorem foldl_insertKey (xs acc : List Str) :
    xs.foldl insertKey acc = acc ++ firstOccurrencesFrom acc xs := by
  induction xs generalizing acc with
  | nil => simp [firstOccurrencesFrom]
  | cons x xs ih =>
    rw [List.foldl_cons, ih]
    unfold insertKey
    by_cases h : x ∈ acc
    · rw [if_pos h]
      conv_rhs => rw [firstOccurrencesFrom, if_pos h]
    · rw [if_neg h]
      conv_rhs => rw [firstOccurrencesFrom, if_neg h]
      simp

theorem innerKeys_addRecord (sd : Obj (Obj (List Record))) (r : Record) (d : Str) :
    ((getOwn (addRecord sd r) d).getD []).map Prod.fst =
      if r.domain = d then insertKey (((getOwn sd d).getD []).map Prod.fst) r.category
      else ((getOwn sd d).getD []).map Prod.fst := by
  rw [getOwn_addRecord]
  by_cases h : r.domain = d
  · rw [if_pos h, if_pos h, Option.getD_some, keys_setOwn]
  · rw [if_neg h, if_neg h]

theorem innerKeys_foldl_addRecord (rs : List Record) (sd : Obj (Obj (List Record))) (d : Str) :
    ((getOwn (rs.foldl addRecord sd) d).getD []).map Prod.fst =
      ((rs.filter (fun r => decide (r.domain = d))).map (fun r => r.category)).foldl insertKey
        (((getOwn sd d).getD []).map Prod.fst) := by
  induction rs generalizing sd with
  | nil => rfl
  | cons r rs ih =>
    rw [List.foldl_cons, ih, innerKeys_addRecord, List.filter_cons]
    by_cases h : r.domain = d
    · rw [if_pos h, if_pos (by simpa using h), List.map_cons, List.foldl_cons]
    · rw [if_neg h, if_neg (by simpa using h)]

theorem mem_firstOccurrencesFrom (seen xs : List Str) (x : Str)
    (h : x ∈ firstOccurrencesFrom seen xs) : x ∈ xs := by
  induction xs generalizing seen with
  | nil => exact absurd h (by simp [firstOccurrencesFrom])
  | cons y ys ih =>
    rw [firstOccurrencesFrom] at h
    by_cases hy : y ∈ seen
    · rw [if_pos hy] at h
      exact List.mem_cons_of_mem _ (ih seen h)
    · rw [if_neg hy, List.mem_cons] at h
      rcases h with h | h
      · rw [h]; exact List.mem_cons_self _ _
      · exact List.mem_cons_of_mem _ (ih _ h)

theorem jsKeyOrder_of_no_index (ks : List Str) (h : ∀ k ∈ ks, arrayIndex k = none) :
    jsKeyOrder ks = ks := by
  unfold jsKeyOrder
  have e1 : ks.filter (fun k => (arrayIndex k).isSome) = [] := by
    apply List.filter_eq_nil_iff.mpr
    intro k hk
    simp [h k hk]
  have e2 : ks.filter (fun k => !(arrayIndex k).isSome) = ks := by
    apply List.filter_eq_self.mpr
    intro k hk
    simp [h k hk]
  rw [e1, e2]
  rfl

/-- C6 as stated fails: with domains met in the order `2`, `1`, the keys
`Object.keys` lists are `1`, `2`: array-index keys come in ascending numeric
order, whatever the order of creation. -/
theorem objectKeys_sorts_array_indices :
    (structureData [keyed "2" "x" "a", keyed "1" "x" "b"]).index.map objectKeys =
        some ["1".toList, "2".toList]
    ∧ firstOccurrences ([keyed "2" "x" "a", keyed "1" "x" "b"].map (fun r => r.domain)) =
        ["2".toList, "1".toList] := by
  decide

/-- C6, amended: for every record sequence in which no domain and no category
is a property name of `Object.prototype`, the domain keys that `Object.keys`
lists are the distinct domains that are array indices in ascending numeric
order, followed by the other distinct domains in order of first occurrence;
for each domain the category keys are listed by the same rule from the
categories of that domain's records.  When no domain (no category) is an
array index, the order is the order of first occurrence.  Domains met as
B, A, B give the key order B, A. -/
theorem structureData_key_order (icfData : List Record)
    (hs : ∀ r ∈ icfData,
      r.domain ∉ objectPrototypeKeys ∧ r.category ∉ objectPrototypeKeys) :
    ∃ h : Heap, structureData icfData = Outcome.completed h
      ∧ objectKeys h.structuredData =
          jsKeyOrder (firstOccurrences (icfData.map (fun r => r.domain)))
      ∧ (∀ d, objectKeys ((getOwn h.structuredData d).getD []) =
          jsKeyOrder (firstOccurrences
            ((icfData.filter (fun r => decide (r.domain = d))).map (fun r => r.category))))
      ∧ ((∀ r ∈ icfData, arrayIndex r.domain = none) →
          objectKeys h.structuredData = firstOccurrences (icfData.map (fun r => r.domain)))
      ∧ ((∀ r ∈ icfData, arrayIndex r.category = none) →
          ∀ d, objectKeys ((getOwn h.structuredData d).getD []) =
            firstOccurrences
              ((icfData.filter (fun r => decide (r.domain = d))).map (fun r => r.category)))
      ∧ (structureData [keyed "B" "x" "1", keyed "A" "x" "2", keyed "B" "y" "3"]).index.map
          objectKeys = some ["B".toList, "A".toList] := by
  have k1 : objectKeys (icfData.foldl addRecord []) =
      jsKeyOrder (firstOccurrences (icfData.map (fun r => r.domain))) := by
    unfold objectKeys firstOccurrences
    rw [keys_foldl_addRecord, foldl_insertKey]
    rfl
  have k2 : ∀ d, objectKeys ((getOwn (icfData.foldl addRecord []) d).getD []) =
      jsKeyOrder (firstOccurrences
        ((icfData.filter (fun r => decide (r.domain = d))).map (fun r => r.category))) := by
    intro d
    unfold objectKeys firstOccurrences
    rw [innerKeys_foldl_addRecord, foldl_insertKey]
    rfl
  refine ⟨_, structureData_own_keys icfData hs, k1, k2, ?_, ?_, by decide⟩
  · intro hn
    rw [k1]
    apply jsKeyOrder_of_no_index
    intro k hk
    have hk' := mem_firstOccurrencesFrom _ _ _ hk
    obtain ⟨r, hr, e⟩ := List.mem_map.mp hk'
    rw [← e]
    exact hn r hr
  · intro hn d
    rw [k2 d]
    apply jsKeyOrder_of_no_index
    intro k hk
    have hk' := mem_firstOccurrencesFrom _ _ _ hk
    obtain ⟨r, hr, e⟩ := List.mem_map.mp hk'
    rw [← e]
    exact hn r (List.mem_filter.mp hr).1

/-- Witness of C6 amended: the domains 10, B, 2, A, B are listed as
2, 10, B, A. -/
theorem structureData_key_order_witness :
    ∃ h : Heap,
      structureData [keyed "10" "x" "1", keyed "B" "x" "2", keyed "2" "y" "3",
        keyed "A" "x" "4", keyed "B" "y" "5"] = Outcome.completed h ∧
      objectKeys h.structuredData = ["2".toList, "10".toList, "B".toList, "A".toList] ∧
      objectKeys ((getOwn h.structuredData "B".toList).getD []) = ["x".toList, "y".toList] := by
  obtain ⟨h, h1, h2, h3, _⟩ := structureData_key_order
    [keyed "10" "x" "1", keyed "B" "x" "2", keyed "2" "y" "3", keyed "A" "x" "4",
      keyed "B" "y" "5"] (by decide)
  refine ⟨h, h1, ?_, ?_⟩
  · rw [h2]; decide
  · rw [h3]; decide

/-! ## Lemmas on the counts -/

theorem sum_setOwn {V : Type} (g : V → Nat) (o : Obj V) (k : Str) (v : V) :
    ((setOwn o k v).map (fun e => g e.2)).sum + ((getOwn o k).map g).getD 0 =
      (o.map (fun e => g e.2)).sum + g v := by
  induction o with
  | nil => simp [setOwn, getOwn]
  | cons e rest ih =>
    rcases e with ⟨a, b⟩
    rw [setOwn_cons, getOwn_cons]
    by_cases h : a = k
    · rw [if_pos h, if_pos h]
      simp only [List.map_cons, List.sum_cons, Option.map_some', Option.getD_some]
      omega
    · rw [if_neg h, if_neg h]
      simp only [List.map_cons, List.sum_cons]
      omega

theorem innerLength_getD (sd : Obj (Obj (List Record))) (d : Str) :
    ((getOwn sd d).map innerLength).getD 0 = innerLength ((getOwn sd d).getD []) := by
  cases getOwn sd d <;> rfl

theorem length_getD (inner : Obj (List Record)) (c : Str) :
    ((getOwn inner c).map List.length).getD 0 = ((getOwn inner c).getD []).length := by
  cases getOwn inner c <;> rfl

theorem innerLength_setOwn_push (inner : Obj (List Record)) (c : Str) (r : Record) :
    innerLength (setOwn inner c ((getOwn inner c).getD [] ++ [r])) = innerLength inner + 1 := by
  have h2 := sum_setOwn List.length inner c ((getOwn inner c).getD [] ++ [r])
  rw [length_getD, List.length_append, List.length_singleton] at h2
  unfold innerLength
  omega

theorem entriesLength_addRecord (sd : Obj (Obj (List Record))) (r : Record) :
    entriesLength (addRecord sd r) = entriesLength sd + 1 := by
  have h1 := sum_setOwn innerLength sd r.domain
    (setOwn ((getOwn sd r.domain).getD []) r.category
      ((getOwn ((getOwn sd r.domain).getD []) r.category).getD [] ++ [r]))
  rw [innerLength_getD, innerLength_setOwn_push] at h1
  show ((setOwn sd r.domain
    (setOwn ((getOwn sd r.domain).getD []) r.category
      ((getOwn ((getOwn sd r.domain).getD []) r.category).getD [] ++ [r]))).map
        (fun e => innerLength e.2)).sum = (sd.map (fun e => innerLength e.2)).sum + 1
  omega

theorem mem_of_getOwn {V : Type} (o : Obj V) (k : Str) (v : V) (h : getOwn o k = some v) :
    (k, v) ∈ o := by
  induction o with
  | nil => exact Option.noConfusion h
  | cons x rest ih =>
    rcases x with ⟨a, b⟩
    rw [getOwn_cons] at h
    by_cases hab : a = k
    · rw [if_pos hab] at h
      rw [← Option.some.inj h, hab]
      exact List.mem_cons_self _ _
    · rw [if_neg hab] at h
      exact List.mem_cons_of_mem _ (ih h)

theorem entriesLength_foldl_addRecord (rs : List Record) (sd : Obj (Obj (List Record))) :
    entriesLength (rs.foldl addRecord sd) = entriesLength sd + rs.length := by
  induction rs generalizing sd with
  | nil => rfl
  | cons r rs ih =>
    rw [List.foldl_cons, ih, entriesLength_addRecord, List.length_cons]
    omega

theorem keysDistinct_addRecord (sd : Obj (Obj (List Record))) (r : Record)
    (h : KeysDistinct sd) : KeysDistinct (addRecord sd r) := by
  constructor
  · rw [keys_addRecord]
    exact nodup_insertKey _ _ h.1
  · intro e he
    unfold addRecord at he
    rcases mem_setOwn _ _ _ _ he with he | he
    · exact h.2 e he
    · rw [he]
      show (List.map Prod.fst (setOwn _ _ _)).Nodup
      rw [keys_setOwn]
      apply nodup_insertKey
      cases hg : getOwn sd r.domain with
      | none => exact List.nodup_nil
      | some inner => exact h.2 _ (mem_of_getOwn sd r.domain inner hg)

theorem keysDistinct_foldl_addRecord (rs : List Record) (sd : Obj (Obj (List Record)))
    (h : KeysDistinct sd) : KeysDistinct (rs.foldl addRecord sd) := by
  induction rs generalizing sd with
  | nil => exact h
  | cons r rs ih => exact ih _ (keysDistinct_addRecord sd r h)

theorem jsKeyOrder_perm (ks : List Str) : List.Perm (jsKeyOrder ks) ks := by
  unfold jsKeyOrder
  exact ((List.perm_insertionSort _ _).append_right _).trans
    (List.filter_append_perm (fun k => (arrayIndex k).isSome) ks)

theorem map_keys_getOwn {V W : Type} (G : Option V → W) (o : Obj V)
    (h : (o.map Prod.fst).Nodup) :
    (o.map Prod.fst).map (fun k => G (getOwn o k)) = o.map (fun e => G (some e.2)) := by
  induction o with
  | nil => rfl
  | cons e rest ih =>
    rcases e with ⟨a, b⟩
    rw [List.map_cons, List.nodup_cons] at h
    rw [List.map_cons, List.map_cons, List.map_cons, getOwn_cons, if_pos rfl, ← ih h.2]
    congr 1
    apply List.map_congr_left
    intro k hk
    rw [getOwn_cons, if_neg (fun e => h.1 (by rw [e]; exact hk))]

theorem sum_objectKeys {V : Type} (G : Option V → Nat) (o : Obj V)
    (h : (o.map Prod.fst).Nodup) :
    ((objectKeys o).map (fun k => G (getOwn o k))).sum = (o.map (fun e => G (some e.2))).sum := by
  unfold objectKeys
  rw [((jsKeyOrder_perm (o.map Prod.fst)).map _).sum_eq, map_keys_getOwn G o h]

theorem sumOfCategoryLengths_eq (sd : Obj (Obj (List Record))) (h : KeysDistinct sd) :
    sumOfCategoryLengths sd = entriesLength sd := by
  unfold sumOfCategoryLengths entriesLength
  have e := sum_objectKeys (fun oi : Option (Obj (List Record)) =>
    ((objectKeys (oi.getD [])).map (fun category =>
      ((oi.bind (fun inner => getOwn inner category)).getD []).length)).sum) sd h.1
  have e' : ((objectKeys sd).map (fun domain =>
      ((objectKeys ((getOwn sd domain).getD [])).map (fun category =>
        ((entry sd domain category).getD []).length)).sum)).sum =
      ((objectKeys sd).map (fun k => (fun oi : Option (Obj (List Record)) =>
        ((objectKeys (oi.getD [])).map (fun category =>
          ((oi.bind (fun inner => getOwn inner category)).getD []).length)).sum)
            (getOwn sd k))).sum := rfl
  rw [e', e]
  congr 1
  apply List.map_congr_left
  intro x hx
  have hn := h.2 x hx
  have e2 := sum_objectKeys (fun oa : Option (List Record) => (oa.getD []).length) x.2 hn
  simp only [Option.getD_some, Option.some_bind]
  rw [e2]
  rfl

/-- C7: the counts disagree on a record whose domain is a property name of
`Object.prototype`.  For the text whose only data row has the domain
`toString`, `parseCSV` keeps one record, `structureData` completes, the array
is created on the method `Object.prototype.toString` and `structuredData` gets
no key, so `totalCodes` is 1 while the sum over the index is 0 and
`totalDomains` is 0. -/
theorem counts_differ_for_inherited_domain :
    structureData (parseCSV "h\ntoString,X,1,a,b,c".toList) =
        Outcome.completed
          { structuredData := [],
            builtinMethods := [("toString".toList,
              [("X".toList, parseCSV "h\ntoString,X,1,a,b,c".toList)])] }
    ∧ totalCodes (parseCSV "h\ntoString,X,1,a,b,c".toList) = 1
    ∧ (structureData (parseCSV "h\ntoString,X,1,a,b,c".toList)).index.map
        sumOfCategoryLengths = some 0
    ∧ (structureData (parseCSV "h\ntoString,X,1,a,b,c".toList)).index.map
        totalDomains = some 0 := by
  decide

/-- Count consistency on own keys (the property of C7 where the code meets
it): for every input text whose records have no domain and no category that
is a property name of `Object.prototype`, `structureData` completes after
`parseCSV` and `totalCodes` equals the sum, over every domain
key and every category key under it, of the length of that category's record
sequence.  The end-to-end input with rows Body/Mobility M1, M2, M3 gives
`totalDomains = 1`, `totalCategories = 1`, `totalCodes = 3`, the length of the
one sequence. -/
theorem totalCodes_eq_sum_of_category_lengths (csvText : Str)
    (hs : ∀ r ∈ parseCSV csvText,
      r.domain ∉ objectPrototypeKeys ∧ r.category ∉ objectPrototypeKeys) :
    (∃ h : Heap, structureData (parseCSV csvText) = Outcome.completed h
      ∧ totalCodes (parseCSV csvText) = sumOfCategoryLengths h.structuredData)
    ∧ (structureData (parseCSV endToEndText)).index.map totalDomains = some 1
    ∧ (structureData (parseCSV endToEndText)).index.map getTotalCategories = some 1
    ∧ totalCodes (parseCSV endToEndText) = 3
    ∧ (structureData (parseCSV endToEndText)).index.map sumOfCategoryLengths = some 3
    ∧ (structureData (parseCSV endToEndText)).index.map
        (fun sd => (entry sd "Body".toList "Mobility".toList).map
          (fun l => l.map (fun r => r.code))) =
        some (some ["M1".toList, "M2".toList, "M3".toList]) := by
  refine ⟨⟨_, structureData_own_keys (parseCSV csvText) hs, ?_⟩, by decide, by decide,
    by decide, by decide, by decide⟩
  show (parseCSV csvText).length = sumOfCategoryLengths ((parseCSV csvText).foldl addRecord [])
  rw [sumOfCategoryLengths_eq _
      (keysDistinct_foldl_addRecord _ [] ⟨List.nodup_nil, fun e he => absurd he (List.not_mem_nil e)⟩),
    entriesLength_foldl_addRecord]
  show (parseCSV csvText).length = 0 + (parseCSV csvText).length
  omega

/-- Count consistency on own keys at a concrete input: three rows in two
domains and three categories. -/
theorem totalCodes_eq_sum_of_category_lengths_witness :
    ∃ h : Heap,
      structureData (parseCSV "h\nB,x,1,d,a,e\nA,x,2,d,a,e\n,y,3,d,a,e".toList) =
        Outcome.completed h
      ∧ sumOfCategoryLengths h.structuredData = 3 := by
  obtain ⟨h, h1, h2⟩ := (totalCodes_eq_sum_of_category_lengths
    "h\nB,x,1,d,a,e\nA,x,2,d,a,e\n,y,3,d,a,e".toList (by decide)).1
  refine ⟨h, h1, ?_⟩
  rw [← h2]
  decide

/-! ## Claims on the lookup -/

/-- C8: the lookup of `displayCodeDetails` shows the record at the smallest
index whose domain, category and code all equal the requested strings, and it
reports "not found" if and only if no record of the sequence matches all
three keys; of several records with the same triple the earliest is shown. -/
theorem displayCodeDetails_first_match (icfData : List Record) (domain category code : Str) :
    (displayCodeDetails icfData domain category code = DetailsView.notFound ↔
      ∀ r ∈ icfData, ¬ (r.domain = domain ∧ r.category = category ∧ r.code = code))
    ∧ (∀ r, displayCodeDetails icfData domain category code = DetailsView.details r ↔
        ∃ i : Nat, icfData[i]? = some r
          ∧ (r.domain = domain ∧ r.category = category ∧ r.code = code)
          ∧ ∀ j : Nat, j < i → ∀ r' : Record, icfData[j]? = some r' →
              ¬ (r'.domain = domain ∧ r'.category = category ∧ r'.code = code))
    ∧ displayCodeDetails
        [keyed "D" "C" "2", { keyed "D" "C" "1" with description := "first".toList },
         { keyed "D" "C" "1" with description := "second".toList }, keyed "d" "C" "1"]
        "D".toList "C".toList "1".toList =
          DetailsView.details { keyed "D" "C" "1" with description := "first".toList }
    ∧ displayCodeDetails [keyed "D" "C" "1"] "d".toList "C".toList "1".toList =
        DetailsView.notFound := by
  refine ⟨?_, ?_, by decide, by decide⟩
  · induction icfData with
    | nil => simp [displayCodeDetails]
    | cons x xs ih =>
      by_cases hx : x.domain = domain ∧ x.category = category ∧ x.code = code
      · have e : displayCodeDetails (x :: xs) domain category code =
            DetailsView.details x := by
          simp [displayCodeDetails, List.find?, hx.1, hx.2.1, hx.2.2]
        rw [e]
        constructor
        · intro h; exact DetailsView.noConfusion h
        · intro h; exact absurd hx (h x (List.mem_cons_self _ _))
      · have e : displayCodeDetails (x :: xs) domain category code =
            displayCodeDetails xs domain category code := by
          have : (decide (x.domain = domain) && decide (x.category = category) &&
              decide (x.code = code)) = false := by
            simp only [Bool.and_eq_false_iff, decide_eq_false_iff_not]
            by_contra hc
            push_neg at hc
            exact hx ⟨hc.1.1, hc.1.2, hc.2⟩
          simp only [displayCodeDetails, List.find?, this]
        rw [e, ih]
        constructor
        · intro h r hr
          rcases List.mem_cons.mp hr with hr | hr
          · rw [hr]; exact hx
          · exact h r hr
        · intro h r hr
          exact h r (List.mem_cons_of_mem _ hr)
  · induction icfData with
    | nil =>
      intro r
      simp [displayCodeDetails]
    | cons x xs ih =>
      intro r
      by_cases hx : x.domain = domain ∧ x.category = category ∧ x.code = code
      · have e : displayCodeDetails (x :: xs) domain category code =
            DetailsView.details x := by
          simp [displayCodeDetails, List.find?, hx.1, hx.2.1, hx.2.2]
        rw [e]
        constructor
        · intro h
          have hr : x = r := DetailsView.details.inj h
          subst hr
          exact ⟨0, by simp, hx, fun j hj => absurd hj (Nat.not_lt_zero j)⟩
        · rintro ⟨i, hi, _, hmin⟩
          cases i with
          | zero =>
            have : x = r := by simpa using hi
            rw [this]
          | succ n => exact absurd hx (hmin 0 (Nat.succ_pos n) x (by simp))
      · have e : displayCodeDetails (x :: xs) domain category code =
            displayCodeDetails xs domain category code := by
          have : (decide (x.domain = domain) && decide (x.category = category) &&
              decide (x.code = code)) = false := by
            simp only [Bool.and_eq_false_iff, decide_eq_false_iff_not]
            by_contra hc
            push_neg at hc
            exact hx ⟨hc.1.1, hc.1.2, hc.2⟩
          simp only [displayCodeDetails, List.find?, this]
        rw [e, ih r]
        constructor
        · rintro ⟨i, hi, hm, hmin⟩
          refine ⟨i + 1, by simpa using hi, hm, ?_⟩
          intro j hj r' hr'
          cases j with
          | zero =>
            have : x = r' := by simpa using hr'
            rw [← this]; exact hx
          | succ n => exact hmin n (by omega) r' (by simpa using hr')
        · rintro ⟨i, hi, hm, hmin⟩
          cases i with
          | zero =>
            have : x = r := by simpa using hi
            rw [this] at hx
            exact absurd hm hx
          | succ n =>
            refine ⟨n, by simpa using hi, hm, ?_⟩
            intro j hj r' hr'
            exact hmin (j + 1) (by omega) r' (by simpa using hr')

end Character
